import Mathlib

/-!
Verification development for the go_sync repository (packages sftp, ftp,
worker).  The Go source is shallowly embedded: filesystem paths are
modelled as canonical lists of path segments (so `filepath.Join` is list
append and, for a path under a root, `filepath.Rel` is dropping the
root's segments), directory listings as an inductive forest, and the
remote/local stores as finite lists of existing paths.  I/O that is
outside this repository (the SFTP/FTP server, the network) is modelled
as always succeeding; the state records which operations the code
performs (uploads, downloads, mkdir calls, failed existence checks), so
the theorems speak about the calls the code makes.
-/

namespace GoSync

/-- A filesystem path, as its canonical list of path segments. -/
abbrev Path := List String

/-- Session roots, from ExtraConfig.LocalDir / ExtraConfig.RemoteDir
(sftp.go:54-67). -/
structure Cfg where
  localRoot : Path
  remoteRoot : Path
  deriving DecidableEq, Repr

/-- Relative path of p under root, modelling filepath.Rel(root, p) for a
path p lying under root: the root's segments are stripped. -/
def relPath (root p : Path) : Path := p.drop root.length

/-- Path translation remote-to-local from SFTP.convertRemoteToLocalPath
(sftp.go:692-696): filepath.Rel(RemoteDir, remotePath) joined onto
LocalDir. -/
def convertRemoteToLocalPath (cfg : Cfg) (remotePath : Path) : Path :=
  cfg.localRoot ++ relPath cfg.remoteRoot remotePath

/-- Path translation local-to-remote as embedded in SFTP.uploadFile
(sftp.go:517,533): filepath.Rel(LocalDir, filePath) joined onto
RemoteDir. -/
def convertLocalToRemotePath (cfg : Cfg) (localPath : Path) : Path :=
  cfg.remoteRoot ++ relPath cfg.localRoot localPath

theorem relPath_append (root rest : Path) : relPath root (root ++ rest) = rest := by
  induction root with
  | nil => rfl
  | cons a t ih =>
      simp only [relPath, List.length_cons, List.cons_append, List.drop_succ_cons]
      exact ih

/-- C7: for every path under the authoritative root, translating it to the
other side (strip the authoritative root, substitute the target root) and
translating the result back yields the original path, in both directions. -/
theorem convertPath_roundTrip (cfg : Cfg) :
    (∀ p : Path, (∃ t, p = cfg.localRoot ++ t) →
      convertRemoteToLocalPath cfg (convertLocalToRemotePath cfg p) = p)
    ∧ (∀ q : Path, (∃ t, q = cfg.remoteRoot ++ t) →
      convertLocalToRemotePath cfg (convertRemoteToLocalPath cfg q) = q) := by
  constructor
  · rintro p ⟨t, rfl⟩
    simp [convertRemoteToLocalPath, convertLocalToRemotePath, relPath_append]
  · rintro q ⟨t, rfl⟩
    simp [convertRemoteToLocalPath, convertLocalToRemotePath, relPath_append]

/-- C7 witness: the round trip evaluated on a concrete path under each
root. -/
theorem convertPath_roundTrip_witness :
    convertRemoteToLocalPath ⟨["l"], ["r"]⟩
        (convertLocalToRemotePath ⟨["l"], ["r"]⟩ ["l", "sub", "a.txt"]) =
      ["l", "sub", "a.txt"]
    ∧ convertLocalToRemotePath ⟨["l"], ["r"]⟩
        (convertRemoteToLocalPath ⟨["l"], ["r"]⟩ ["r", "b.txt"]) = ["r", "b.txt"] :=
  ⟨(convertPath_roundTrip ⟨["l"], ["r"]⟩).1 _ ⟨["sub", "a.txt"], rfl⟩,
   (convertPath_roundTrip ⟨["l"], ["r"]⟩).2 _ ⟨["b.txt"], rfl⟩⟩

/-- File event kinds, mirroring the fsnotify.Op values the code uses. -/
inductive EventType where
  | create | write | remove | rename | chmod
  deriving DecidableEq, Repr

/-- A worker-pool task: worker.Task{EventType, Name} (worker/worker.go:38-41). -/
structure Task where
  eventType : EventType
  name : String
  deriving DecidableEq, Repr

/-- A remote-tree snapshot: the path-to-modification-time map built by
walkRemoteDir, as an association list (Go map iteration order abstracted
as list order). -/
abbrev Snapshot := List (String × Nat)

/-- Lookup in a snapshot map (Go map indexing; first binding wins). -/
def snapFind : Snapshot → String → Option Nat
  | [], _ => none
  | (q, t) :: rest, p => if q = p then some t else snapFind rest p

/-- The task emitted for an entry of the new snapshot by the poll-diff body
of AddDirectoriesToWatcher (sftp.go:473-481, ftp.go:493-501): a
fsnotify.Create task when the path is absent from the previous snapshot or
its previous modification time is strictly earlier. -/
def newFileTask (prevFiles : Snapshot) (e : String × Nat) : Option Task :=
  match snapFind prevFiles e.1 with
  | none => some ⟨.create, e.1⟩
  | some tp => if tp < e.2 then some ⟨.create, e.1⟩ else none

/-- The task emitted for an entry of the previous snapshot by the poll-diff
body (sftp.go:483-492, ftp.go:503-512): a fsnotify.Remove task when the
path is absent from the new snapshot. -/
def removedFileTask (newFiles : Snapshot) (e : String × Nat) : Option Task :=
  match snapFind newFiles e.1 with
  | none => some ⟨.remove, e.1⟩
  | some _ => none

/-- One poll-diff cycle of AddDirectoriesToWatcher in RemoteToLocal mode
(sftp.go:472-493): tasks for new-or-modified files, then tasks for removed
files. -/
def pollDiff (prevFiles newFiles : Snapshot) : List Task :=
  newFiles.filterMap (newFileTask prevFiles)
    ++ prevFiles.filterMap (removedFileTask newFiles)

/-- A snapshot map has no duplicate paths (true of any Go map). -/
def nodupKeys (s : Snapshot) : Prop := (s.map Prod.fst).Nodup

instance (s : Snapshot) : Decidable (nodupKeys s) := by
  unfold nodupKeys; infer_instance

/-- The RemoteToLocal polling loop of AddDirectoriesToWatcher
(sftp.go:461-497, ftp.go:481-517), run against a list of walkRemoteDir
outcomes (none models a walk error, which is the loop's only exit; the
loop body never consults the cancellation context s.ctx).  Returns the
task lists emitted by the completed diff cycles and whether the loop
exited. -/
def pollLoopRun : List (Option Snapshot) → Option Snapshot → List (List Task) × Bool
  | [], _ => ([], false)
  | none :: _, _ => ([], true)
  | some newFiles :: rest, prevFiles =>
      let out := match prevFiles with
        | none => []
        | some p => pollDiff p newFiles
      let r := pollLoopRun rest (some newFiles)
      (out :: r.1, r.2)

/-- C1 counterexample: for S1 = \x7ba: 0, b: 0\x7d and S2 = \x7ba: 1, c: 0\x7d the
diff emits fsnotify.Create tasks for a and c (and Remove for b) — it emits
no Write task at all, refuting the claimed output Write(a), Write(c),
Remove(b). -/
theorem pollDiff_emits_create_not_write_tasks :
    pollDiff [("a", 0), ("b", 0)] [("a", 1), ("c", 0)] =
      [⟨.create, "a"⟩, ⟨.create, "c"⟩, ⟨.remove, "b"⟩]
    ∧ Task.mk .write "a" ∉ pollDiff [("a", 0), ("b", 0)] [("a", 1), ("c", 0)]
    ∧ Task.mk .write "c" ∉ pollDiff [("a", 0), ("b", 0)] [("a", 1), ("c", 0)] := by
  decide

theorem snapFind_eq_some_of_mem {s : Snapshot} {p : String} {t : Nat}
    (hn : nodupKeys s) (hm : (p, t) ∈ s) : snapFind s p = some t := by
  induction s with
  | nil => cases hm
  | cons e rest ih =>
      obtain ⟨q, u⟩ := e
      simp only [nodupKeys, List.map_cons, List.nodup_cons] at hn
      rcases List.mem_cons.mp hm with h | h
      · simp_all [snapFind]
      · have hq : q ≠ p := by
          rintro rfl
          exact hn.1 (List.mem_map.mpr ⟨(q, t), h, rfl⟩)
        simp [snapFind, hq, ih hn.2 h]

theorem mem_of_snapFind_eq_some {s : Snapshot} {p : String} {t : Nat}
    (h : snapFind s p = some t) : (p, t) ∈ s := by
  induction s with
  | nil => simp [snapFind] at h
  | cons e rest ih =>
      obtain ⟨q, u⟩ := e
      by_cases hq : q = p
      · subst hq
        simp [snapFind] at h
        simp [h]
      · simp [snapFind, hq] at h
        exact List.mem_cons_of_mem _ (ih h)

theorem snapFind_isSome_of_mem {s : Snapshot} {p : String} {t : Nat}
    (hm : (p, t) ∈ s) : (snapFind s p).isSome = true := by
  induction s with
  | nil => cases hm
  | cons e rest ih =>
      obtain ⟨q, u⟩ := e
      by_cases hq : q = p
      · simp [snapFind, hq]
      · rcases List.mem_cons.mp hm with h | h
        · cases h; simp at hq
        · simp [snapFind, hq, ih h]

theorem newFileTask_eq_some_of_none {prevFiles : Snapshot} {e : String × Nat}
    (hf : snapFind prevFiles e.1 = none) :
    newFileTask prevFiles e = some ⟨.create, e.1⟩ := by
  simp [newFileTask, hf]

theorem newFileTask_eq_some_of_lt {prevFiles : Snapshot} {e : String × Nat}
    {tp : Nat} (hf : snapFind prevFiles e.1 = some tp) (hlt : tp < e.2) :
    newFileTask prevFiles e = some ⟨.create, e.1⟩ := by
  simp [newFileTask, hf, hlt]

theorem newFileTask_eq_none {prevFiles : Snapshot} {e : String × Nat}
    {tp : Nat} (hf : snapFind prevFiles e.1 = some tp) (hge : ¬ tp < e.2) :
    newFileTask prevFiles e = none := by
  simp [newFileTask, hf, hge]

theorem newFileTask_inv {prevFiles : Snapshot} {e : String × Nat} {task : Task}
    (h : newFileTask prevFiles e = some task) :
    task = ⟨.create, e.1⟩ ∧ ∀ tp, snapFind prevFiles e.1 = some tp → tp < e.2 := by
  rcases hf : snapFind prevFiles e.1 with _ | tp
  · rw [newFileTask_eq_some_of_none hf] at h
    refine ⟨(Option.some.inj h).symm, ?_⟩
    intro tp h'
    cases h'
  · by_cases hlt : tp < e.2
    · rw [newFileTask_eq_some_of_lt hf hlt] at h
      refine ⟨(Option.some.inj h).symm, ?_⟩
      intro tp' h'
      obtain rfl := Option.some.inj h'
      exact hlt
    · rw [newFileTask_eq_none hf hlt] at h
      cases h

theorem removedFileTask_eq_some {newFiles : Snapshot} {e : String × Nat}
    (hf : snapFind newFiles e.1 = none) :
    removedFileTask newFiles e = some ⟨.remove, e.1⟩ := by
  simp [removedFileTask, hf]

theorem removedFileTask_inv {newFiles : Snapshot} {e : String × Nat} {task : Task}
    (h : removedFileTask newFiles e = some task) :
    task = ⟨.remove, e.1⟩ ∧ snapFind newFiles e.1 = none := by
  rcases hf : snapFind newFiles e.1 with _ | t
  · rw [removedFileTask_eq_some hf] at h
    exact ⟨(Option.some.inj h).symm, rfl⟩
  · rw [show removedFileTask newFiles e = none by simp [removedFileTask, hf]] at h
    cases h

/-- C1 amended: the diff of one poll cycle emits a Create task for exactly
the paths that are new or have a strictly later modification time than in
the previous snapshot, a Remove task for exactly the paths present
previously but absent now, and no task of any other kind (in particular no
Write task). -/
theorem pollDiff_characterization (prevFiles newFiles : Snapshot)
    (hn : nodupKeys newFiles) :
    (∀ p : String,
      (Task.mk .create p ∈ pollDiff prevFiles newFiles ↔
        ∃ t, snapFind newFiles p = some t ∧
          ∀ tp, snapFind prevFiles p = some tp → tp < t)
      ∧ (Task.mk .remove p ∈ pollDiff prevFiles newFiles ↔
        (snapFind prevFiles p).isSome = true ∧ snapFind newFiles p = none))
    ∧ ∀ task ∈ pollDiff prevFiles newFiles,
        task.eventType = .create ∨ task.eventType = .remove := by
  refine ⟨fun p => ⟨⟨fun h => ?_, fun h => ?_⟩, ⟨fun h => ?_, fun h => ?_⟩⟩,
      fun task h => ?_⟩
  · rcases List.mem_append.mp h with h1 | h2
    · obtain ⟨e, hmem, heq⟩ := List.mem_filterMap.mp h1
      obtain ⟨htask, hcond⟩ := newFileTask_inv heq
      obtain ⟨q, u⟩ := e
      have hq : q = p := by
        have := congrArg Task.name htask
        simpa using this.symm
      subst hq
      exact ⟨u, snapFind_eq_some_of_mem hn hmem, hcond⟩
    · obtain ⟨e, hmem, heq⟩ := List.mem_filterMap.mp h2
      obtain ⟨htask, _⟩ := removedFileTask_inv heq
      simp [Task.mk.injEq] at htask
  · obtain ⟨t, hfnew, hc⟩ := h
    refine List.mem_append.mpr (Or.inl (List.mem_filterMap.mpr
      ⟨(p, t), mem_of_snapFind_eq_some hfnew, ?_⟩))
    rcases hprev : snapFind prevFiles p with _ | tp
    · exact newFileTask_eq_some_of_none hprev
    · exact newFileTask_eq_some_of_lt hprev (hc tp hprev)
  · rcases List.mem_append.mp h with h1 | h2
    · obtain ⟨e, hmem, heq⟩ := List.mem_filterMap.mp h1
      obtain ⟨htask, _⟩ := newFileTask_inv heq
      simp [Task.mk.injEq] at htask
    · obtain ⟨e, hmem, heq⟩ := List.mem_filterMap.mp h2
      obtain ⟨htask, hnone⟩ := removedFileTask_inv heq
      obtain ⟨q, u⟩ := e
      have hq : q = p := by
        have := congrArg Task.name htask
        simpa using this.symm
      subst hq
      exact ⟨snapFind_isSome_of_mem hmem, hnone⟩
  · obtain ⟨hsome, hnone⟩ := h
    obtain ⟨u, hu⟩ := Option.isSome_iff_exists.mp hsome
    exact List.mem_append.mpr (Or.inr (List.mem_filterMap.mpr
      ⟨(p, u), mem_of_snapFind_eq_some hu, removedFileTask_eq_some hnone⟩))
  · rcases List.mem_append.mp h with h1 | h2
    · obtain ⟨e, _, heq⟩ := List.mem_filterMap.mp h1
      rw [(newFileTask_inv heq).1]
      exact Or.inl rfl
    · obtain ⟨e, _, heq⟩ := List.mem_filterMap.mp h2
      rw [(removedFileTask_inv heq).1]
      exact Or.inr rfl

/-- C1 witness: the characterization instantiated on the concrete
snapshots of the spec scenario at path b. -/
theorem pollDiff_characterization_witness :
    nodupKeys [("a", 1), ("c", 0)]
    ∧ (Task.mk .remove "b" ∈ pollDiff [("a", 0), ("b", 0)] [("a", 1), ("c", 0)] ↔
        (snapFind [("a", 0), ("b", 0)] "b").isSome = true
        ∧ snapFind [("a", 1), ("c", 0)] "b" = none) :=
  ⟨by decide,
   ((pollDiff_characterization [("a", 0), ("b", 0)] [("a", 1), ("c", 0)]
      (by decide)).1 "b").2⟩

/-- C3: the RemoteToLocal polling loop contains no cancellation check at
all (s.ctx is never consulted in AddDirectoriesToWatcher), so after
cancellation is signaled it keeps performing full diff cycles as long as
the remote walk succeeds: here four successive successful walks after the
signal yield four full diff cycles — not at most one — and the loop has
not exited. -/
theorem pollLoop_never_exits_on_cancellation :
    (pollLoopRun [some [("a", 0)], some [("a", 1)], some [("a", 2)],
        some [("a", 3)]] none).1 =
      [[], [⟨.create, "a"⟩], [⟨.create, "a"⟩], [⟨.create, "a"⟩]]
    ∧ (pollLoopRun [some [("a", 0)], some [("a", 1)], some [("a", 2)],
        some [("a", 3)]] none).2 = false := by
  decide

/-- C6: the first iteration of the poll loop (no previous snapshot) emits
no tasks whatever the walked snapshot is; it only seeds the snapshot map,
so the second iteration diffs against the first walk's result. -/
theorem pollLoop_first_iteration_silent (w w2 : Snapshot)
    (rest : List (Option Snapshot)) :
    (pollLoopRun (some w :: rest) none).1.head? = some []
    ∧ (pollLoopRun [some w, some w2] none).1 = [[], pollDiff w w2] := by
  constructor
  · simp [pollLoopRun]
  · simp [pollLoopRun]

/-- Sync direction (sftp.go:23-30). -/
inductive SyncDirection where
  | localToRemote | remoteToLocal
  deriving DecidableEq, Repr

/-- A directory listing as walked by syncDir: the ordered entries of one
directory, each a file or a subdirectory with its own listing (os.ReadDir
/ Client.ReadDir results; modification times are never read by syncDir
and are omitted). -/
inductive FsForest where
  | nil : FsForest
  | consFile (name : String) (rest : FsForest) : FsForest
  | consDir (name : String) (children : FsForest) (rest : FsForest) : FsForest
  deriving DecidableEq, Repr

/-- State of the two stores as seen by the reconciliation pass, plus a
log of the operations performed.  localPaths is the set of paths existing
on the local machine (the domain os.Stat succeeds on), remotePaths the
set of paths existing on the remote server (the domain Client.Stat
succeeds on).  uploads and downloads record the source paths of the file
transfers actually performed, mkdirs the MkdirAll calls, and misses the
existence checks (os.Stat / Client.Stat) that failed.  Transport-level
I/O failures of the out-of-scope server are not modelled: every performed
operation succeeds. -/
structure SyncSt where
  localPaths : List Path
  remotePaths : List Path
  uploads : List Path
  downloads : List Path
  mkdirs : List Path
  misses : List Path
  deriving DecidableEq, Repr

/-- SFTP.uploadFile (sftp.go:513-550): computes the remote target from
filepath.Rel(LocalDir, filePath) joined onto RemoteDir, creates the
remote file and copies the data. -/
def uploadFileM (cfg : Cfg) (filePath : Path) (st : SyncSt) : SyncSt :=
  { st with
    remotePaths := convertLocalToRemotePath cfg filePath :: st.remotePaths
    uploads := st.uploads ++ [filePath] }

/-- A segment-list path contains the substring ".swp" exactly when some
segment does, since ".swp" has no separator; strContains models Go's
strings.Contains by scanning. -/
def listStartsWith : List Char → List Char → Bool
  | [], _ => true
  | _ :: _, [] => false
  | p :: ps, c :: cs => p == c && listStartsWith ps cs

def listContainsSub (pat : List Char) : List Char → Bool
  | [] => listStartsWith pat []
  | c :: cs => listStartsWith pat (c :: cs) || listContainsSub pat cs

def strContains (s pat : String) : Bool := listContainsSub pat.data s.data

def hasSwp (p : Path) : Bool := p.any fun seg => strContains seg ".swp"

/-- SFTP.downloadFile (sftp.go:563-602): a remote path containing ".swp"
is skipped outright (nil is returned before any file is opened, created
or copied); otherwise the local target is filepath.Rel(RemoteDir,
remotePath) joined onto LocalDir, the local file is created and the data
copied. -/
def downloadFileM (cfg : Cfg) (remotePath : Path) (st : SyncSt) : SyncSt :=
  if hasSwp remotePath then st
  else
    { st with
      localPaths := convertRemoteToLocalPath cfg remotePath :: st.localPaths
      downloads := st.downloads ++ [remotePath] }

/-- SFTP.checkOrCreateDir (sftp.go:310-333): the existence check is
os.Stat(dirPath) — the LOCAL filesystem — in both directions; when it
fails, LocalToRemote creates dirPath on the remote (Client.MkdirAll +
Chmod), RemoteToLocal creates it locally (os.MkdirAll). -/
def checkOrCreateDir (direction : SyncDirection) (dirPath : Path)
    (st : SyncSt) : SyncSt :=
  if dirPath ∈ st.localPaths then st
  else
    match direction with
    | .localToRemote =>
        { st with
          remotePaths := dirPath :: st.remotePaths
          mkdirs := st.mkdirs ++ [dirPath]
          misses := st.misses ++ [dirPath] }
    | .remoteToLocal =>
        { st with
          localPaths := dirPath :: st.localPaths
          mkdirs := st.mkdirs ++ [dirPath]
          misses := st.misses ++ [dirPath] }

/-- SFTP.syncDir (sftp.go:238-300), walking the authoritative side's
listing.  LocalToRemote: a directory entry gets checkOrCreateDir on its
remote path then recursion; a file entry is Client.Stat'ed on the remote
and uploaded when missing.  RemoteToLocal: symmetric, with os.Stat on the
local counterpart and downloadFile when missing. -/
def syncDir (cfg : Cfg) (direction : SyncDirection) (localDir remoteDir : Path) :
    FsForest → SyncSt → SyncSt
  | .nil, st => st
  | .consFile name rest, st =>
      let st1 :=
        match direction with
        | .localToRemote =>
            if remoteDir ++ [name] ∈ st.remotePaths then st
            else uploadFileM cfg (localDir ++ [name])
              { st with misses := st.misses ++ [remoteDir ++ [name]] }
        | .remoteToLocal =>
            if localDir ++ [name] ∈ st.localPaths then st
            else downloadFileM cfg (remoteDir ++ [name])
              { st with misses := st.misses ++ [localDir ++ [name]] }
      syncDir cfg direction localDir remoteDir rest st1
  | .consDir name children rest, st =>
      let checked :=
        match direction with
        | .localToRemote => checkOrCreateDir direction (remoteDir ++ [name]) st
        | .remoteToLocal => checkOrCreateDir direction (localDir ++ [name]) st
      let st1 := syncDir cfg direction (localDir ++ [name]) (remoteDir ++ [name])
        children checked
      syncDir cfg direction localDir remoteDir rest st1

/-- SFTP.initialSync (sftp.go:223-225): syncDir from the configured
roots.  The forest is the authoritative side's tree (local in
LocalToRemote, remote in RemoteToLocal). -/
def initialSync (cfg : Cfg) (direction : SyncDirection) (tree : FsForest)
    (st : SyncSt) : SyncSt :=
  syncDir cfg direction cfg.localRoot cfg.remoteRoot tree st

/-- One InitialSync run started from given local and remote stores, with
empty operation logs. -/
def runInitialSync (cfg : Cfg) (direction : SyncDirection) (tree : FsForest)
    (lp rp : List Path) : SyncSt :=
  initialSync cfg direction tree ⟨lp, rp, [], [], [], []⟩

/-- The relative paths of all files in a forest. -/
def fileRelPaths : FsForest → List Path
  | .nil => []
  | .consFile name rest => [name] :: fileRelPaths rest
  | .consDir name children rest =>
      (fileRelPaths children).map (name :: ·) ++ fileRelPaths rest

/-- Growth order on sync states: the sets of existing paths only grow. -/
def syncLe (a b : SyncSt) : Prop :=
  a.localPaths ⊆ b.localPaths ∧ a.remotePaths ⊆ b.remotePaths

theorem syncLe_refl (a : SyncSt) : syncLe a a := ⟨fun _ h => h, fun _ h => h⟩

theorem syncLe_trans {a b c : SyncSt} (h1 : syncLe a b) (h2 : syncLe b c) :
    syncLe a c :=
  ⟨fun _ h => h2.1 (h1.1 h), fun _ h => h2.2 (h1.2 h)⟩

theorem uploadFileM_le (cfg : Cfg) (p : Path) (st : SyncSt) :
    syncLe st (uploadFileM cfg p st) :=
  ⟨fun _ h => h, fun _ h => List.mem_cons_of_mem _ h⟩

theorem downloadFileM_le (cfg : Cfg) (p : Path) (st : SyncSt) :
    syncLe st (downloadFileM cfg p st) := by
  unfold downloadFileM
  by_cases hs : hasSwp p
  · simp [hs]; exact syncLe_refl st
  · simp [hs]; exact ⟨fun _ h => List.mem_cons_of_mem _ h, fun _ h => h⟩

theorem downloadFileM_swp {p : Path} (hs : hasSwp p = true) (cfg : Cfg)
    (st : SyncSt) : downloadFileM cfg p st = st := by
  unfold downloadFileM
  rw [if_pos hs]

theorem downloadFileM_go {p : Path} (hs : hasSwp p = false) (cfg : Cfg)
    (st : SyncSt) :
    downloadFileM cfg p st =
      { st with
        localPaths := convertRemoteToLocalPath cfg p :: st.localPaths
        downloads := st.downloads ++ [p] } := by
  unfold downloadFileM
  rw [if_neg (by simp [hs])]

theorem misses_le (st : SyncSt) (m : List Path) :
    syncLe st { st with misses := m } := ⟨fun _ h => h, fun _ h => h⟩

theorem checkOrCreateDir_le (d : SyncDirection) (p : Path) (st : SyncSt) :
    syncLe st (checkOrCreateDir d p st) := by
  unfold checkOrCreateDir
  by_cases hm : p ∈ st.localPaths
  · simp [hm]; exact syncLe_refl st
  · cases d
    · simp [hm]; exact ⟨fun _ h => h, fun _ h => List.mem_cons_of_mem _ h⟩
    · simp [hm]; exact ⟨fun _ h => List.mem_cons_of_mem _ h, fun _ h => h⟩

theorem checkOrCreateDir_uploads (d : SyncDirection) (p : Path) (st : SyncSt) :
    (checkOrCreateDir d p st).uploads = st.uploads := by
  unfold checkOrCreateDir
  by_cases hm : p ∈ st.localPaths
  · simp [hm]
  · cases d <;> simp [hm]

theorem checkOrCreateDir_downloads (d : SyncDirection) (p : Path) (st : SyncSt) :
    (checkOrCreateDir d p st).downloads = st.downloads := by
  unfold checkOrCreateDir
  by_cases hm : p ∈ st.localPaths
  · simp [hm]
  · cases d <;> simp [hm]

theorem syncDir_le (cfg : Cfg) (d : SyncDirection) (ld rd : Path) (f : FsForest)
    (st : SyncSt) : syncLe st (syncDir cfg d ld rd f st) := by
  induction f generalizing ld rd st with
  | nil => exact syncLe_refl st
  | consFile name rest ih =>
      cases d with
      | localToRemote =>
          by_cases hm : rd ++ [name] ∈ st.remotePaths
          · simpa [syncDir, hm] using ih ld rd st
          · simp only [syncDir, hm, if_false]
            exact syncLe_trans
              (syncLe_trans (misses_le st _) (uploadFileM_le cfg _ _)) (ih ld rd _)
      | remoteToLocal =>
          by_cases hm : ld ++ [name] ∈ st.localPaths
          · simpa [syncDir, hm] using ih ld rd st
          · simp only [syncDir, hm, if_false]
            exact syncLe_trans
              (syncLe_trans (misses_le st _) (downloadFileM_le cfg _ _)) (ih ld rd _)
  | consDir name children rest ihc ihr =>
      cases d with
      | localToRemote =>
          simp only [syncDir]
          exact syncLe_trans (checkOrCreateDir_le _ _ _)
            (syncLe_trans (ihc _ _ _) (ihr _ _ _))
      | remoteToLocal =>
          simp only [syncDir]
          exact syncLe_trans (checkOrCreateDir_le _ _ _)
            (syncLe_trans (ihc _ _ _) (ihr _ _ _))

theorem syncDir_l2r_downloads (cfg : Cfg) (ld rd : Path) (f : FsForest)
    (st : SyncSt) :
    (syncDir cfg .localToRemote ld rd f st).downloads = st.downloads := by
  induction f generalizing ld rd st with
  | nil => rfl
  | consFile name rest ih =>
      by_cases hm : rd ++ [name] ∈ st.remotePaths
      · simp [syncDir, hm, ih]
      · simp [syncDir, hm, ih, uploadFileM]
  | consDir name children rest ihc ihr =>
      simp only [syncDir]
      rw [ihr, ihc, checkOrCreateDir_downloads]

theorem syncDir_r2l_uploads (cfg : Cfg) (ld rd : Path) (f : FsForest)
    (st : SyncSt) :
    (syncDir cfg .remoteToLocal ld rd f st).uploads = st.uploads := by
  induction f generalizing ld rd st with
  | nil => rfl
  | consFile name rest ih =>
      by_cases hm : ld ++ [name] ∈ st.localPaths
      · simp [syncDir, hm, ih]
      · by_cases hs : hasSwp (rd ++ [name])
        · simp [syncDir, hm, ih, downloadFileM, hs]
        · simp [syncDir, hm, ih, downloadFileM, hs]
  | consDir name children rest ihc ihr =>
      simp only [syncDir]
      rw [ihr, ihc, checkOrCreateDir_uploads]

theorem syncDir_l2r_uploads_covered (cfg : Cfg) (ld rd : Path) (f : FsForest)
    (st : SyncSt) (h : ∀ r ∈ fileRelPaths f, rd ++ r ∈ st.remotePaths) :
    (syncDir cfg .localToRemote ld rd f st).uploads = st.uploads := by
  induction f generalizing ld rd st with
  | nil => rfl
  | consFile name rest ih =>
      have hm : rd ++ [name] ∈ st.remotePaths := h [name] (by simp [fileRelPaths])
      simp only [syncDir, hm, if_true]
      exact ih ld rd st fun r hr => h r (by simp [fileRelPaths, hr])
  | consDir name children rest ihc ihr =>
      simp only [syncDir]
      have hchk := checkOrCreateDir_le .localToRemote (rd ++ [name]) st
      have hsub : ∀ r ∈ fileRelPaths children,
          (rd ++ [name]) ++ r ∈ (checkOrCreateDir .localToRemote (rd ++ [name]) st).remotePaths := by
        intro r hr
        have hmem : (name :: r) ∈ fileRelPaths (FsForest.consDir name children rest) := by
          simp only [fileRelPaths, List.mem_append]
          exact Or.inl (List.mem_map.mpr ⟨r, hr, rfl⟩)
        exact hchk.2 (by simpa [List.append_assoc] using h (name :: r) hmem)
      have hcu := ihc (ld ++ [name]) (rd ++ [name]) _ hsub
      have hrest : ∀ r ∈ fileRelPaths rest,
          rd ++ r ∈ (syncDir cfg .localToRemote (ld ++ [name]) (rd ++ [name])
            children (checkOrCreateDir .localToRemote (rd ++ [name]) st)).remotePaths := by
        intro r hr
        exact (syncDir_le cfg _ _ _ children _).2
          (hchk.2 (h r (by simp [fileRelPaths, hr])))
      rw [ihr ld rd _ hrest, hcu, checkOrCreateDir_uploads]

theorem syncDir_l2r_covers (cfg : Cfg) (s : Path) (f : FsForest) (st : SyncSt) :
    ∀ r ∈ fileRelPaths f,
      cfg.remoteRoot ++ (s ++ r) ∈
        (syncDir cfg .localToRemote (cfg.localRoot ++ s) (cfg.remoteRoot ++ s)
          f st).remotePaths := by
  induction f generalizing s st with
  | nil => intro r hr; cases hr
  | consFile name rest ih =>
      intro r hr
      rcases (by simpa [fileRelPaths] using hr :
          r = [name] ∨ r ∈ fileRelPaths rest) with rfl | hr2
      · by_cases hm : (cfg.remoteRoot ++ s) ++ [name] ∈ st.remotePaths
        · simp only [syncDir, hm, if_true]
          exact (syncDir_le cfg _ _ _ rest st).2
            (by simpa [List.append_assoc] using hm)
        · simp only [syncDir, hm, if_false]
          refine (syncDir_le cfg _ _ _ rest _).2 ?_
          have hconv : convertLocalToRemotePath cfg (cfg.localRoot ++ (s ++ [name])) =
              cfg.remoteRoot ++ (s ++ [name]) := by
            simp only [convertLocalToRemotePath]
            rw [relPath_append]
          simp [uploadFileM, List.append_assoc, hconv]
      · simp only [syncDir]
        by_cases hm : (cfg.remoteRoot ++ s) ++ [name] ∈ st.remotePaths <;>
          simp only [hm, if_true, if_false] <;> exact ih s _ r hr2
  | consDir name children rest ihc ihr =>
      intro r hr
      rcases (by simpa [fileRelPaths] using hr :
          (∃ r', r' ∈ fileRelPaths children ∧ name :: r' = r) ∨
            r ∈ fileRelPaths rest) with ⟨r', hr', rfl⟩ | hr2
      · simp only [syncDir]
        refine (syncDir_le cfg _ _ _ rest _).2 ?_
        have := ihc (s ++ [name])
          (checkOrCreateDir .localToRemote ((cfg.remoteRoot ++ s) ++ [name]) st) r' hr'
        simpa [List.append_assoc] using this
      · simp only [syncDir]
        exact ihr s _ r hr2

theorem syncDir_l2r_upload_src (cfg : Cfg) (s : Path) (f : FsForest) (st : SyncSt)
    (q : Path)
    (hq : q ∈ (syncDir cfg .localToRemote (cfg.localRoot ++ s)
      (cfg.remoteRoot ++ s) f st).uploads) :
    q ∈ st.uploads ∨ convertLocalToRemotePath cfg q ∉ st.remotePaths := by
  induction f generalizing s st with
  | nil => exact Or.inl hq
  | consFile name rest ih =>
      by_cases hm : (cfg.remoteRoot ++ s) ++ [name] ∈ st.remotePaths
      · simp only [syncDir, hm, if_true] at hq
        exact ih s st hq
      · simp only [syncDir, hm, if_false] at hq
        rcases ih s _ hq with h1 | h2
        · simp only [uploadFileM, List.mem_append, List.mem_singleton] at h1
          rcases h1 with h1 | rfl
          · exact Or.inl h1
          · refine Or.inr ?_
            have hconv : convertLocalToRemotePath cfg
                ((cfg.localRoot ++ s) ++ [name]) =
                (cfg.remoteRoot ++ s) ++ [name] := by
              simp only [convertLocalToRemotePath, List.append_assoc]
              rw [relPath_append]
            rw [hconv]
            exact hm
        · refine Or.inr fun hc => h2 ?_
          simp only [uploadFileM]
          exact List.mem_cons_of_mem _ hc
  | consDir name children rest ihc ihr =>
      simp only [syncDir] at hq
      rcases ihr s _ hq with h1 | h2
      · rw [List.append_assoc, List.append_assoc] at h1
        rcases ihc (s ++ [name]) _ h1 with g1 | g2
        · rw [checkOrCreateDir_uploads] at g1
          exact Or.inl g1
        · exact Or.inr fun hc => g2 ((checkOrCreateDir_le _ _ _).2 hc)
      · exact Or.inr fun hc =>
          h2 ((syncDir_le cfg _ _ _ children _).2 ((checkOrCreateDir_le _ _ _).2 hc))

theorem syncDir_r2l_covers (cfg : Cfg) (s : Path) (f : FsForest) (st : SyncSt) :
    ∀ r ∈ fileRelPaths f, hasSwp (cfg.remoteRoot ++ (s ++ r)) = false →
      cfg.localRoot ++ (s ++ r) ∈
        (syncDir cfg .remoteToLocal (cfg.localRoot ++ s) (cfg.remoteRoot ++ s)
          f st).localPaths := by
  induction f generalizing s st with
  | nil => intro r hr; cases hr
  | consFile name rest ih =>
      intro r hr hswp
      rcases (by simpa [fileRelPaths] using hr :
          r = [name] ∨ r ∈ fileRelPaths rest) with rfl | hr2
      · by_cases hm : (cfg.localRoot ++ s) ++ [name] ∈ st.localPaths
        · simp only [syncDir, hm, if_true]
          exact (syncDir_le cfg _ _ _ rest st).1
            (by simpa [List.append_assoc] using hm)
        · simp only [syncDir, hm, if_false]
          refine (syncDir_le cfg _ _ _ rest _).1 ?_
          have hswp2 : hasSwp ((cfg.remoteRoot ++ s) ++ [name]) = false := by
            simpa [List.append_assoc] using hswp
          rw [downloadFileM_go hswp2]
          have hconv : convertRemoteToLocalPath cfg
              ((cfg.remoteRoot ++ s) ++ [name]) =
              (cfg.localRoot ++ s) ++ [name] := by
            simp only [convertRemoteToLocalPath, List.append_assoc]
            rw [relPath_append]
          rw [hconv]
          simp [List.append_assoc]
      · simp only [syncDir]
        by_cases hm : (cfg.localRoot ++ s) ++ [name] ∈ st.localPaths <;>
          simp only [hm, if_true, if_false] <;> exact ih s _ r hr2 hswp
  | consDir name children rest ihc ihr =>
      intro r hr hswp
      rcases (by simpa [fileRelPaths] using hr :
          (∃ r', r' ∈ fileRelPaths children ∧ name :: r' = r) ∨
            r ∈ fileRelPaths rest) with ⟨r', hr', rfl⟩ | hr2
      · simp only [syncDir]
        refine (syncDir_le cfg _ _ _ rest _).1 ?_
        have := ihc (s ++ [name])
          (checkOrCreateDir .remoteToLocal ((cfg.localRoot ++ s) ++ [name]) st)
          r' hr' (by simpa [List.append_assoc] using hswp)
        simpa [List.append_assoc] using this
      · simp only [syncDir]
        exact ihr s _ r hr2 hswp

theorem syncDir_r2l_downloads_covered (cfg : Cfg) (s : Path) (f : FsForest)
    (st : SyncSt)
    (h : ∀ r ∈ fileRelPaths f, hasSwp (cfg.remoteRoot ++ (s ++ r)) = true ∨
      cfg.localRoot ++ (s ++ r) ∈ st.localPaths) :
    (syncDir cfg .remoteToLocal (cfg.localRoot ++ s) (cfg.remoteRoot ++ s)
      f st).downloads = st.downloads := by
  induction f generalizing s st with
  | nil => rfl
  | consFile name rest ih =>
      have hrest : ∀ st2 : SyncSt, st.localPaths ⊆ st2.localPaths →
          ∀ r ∈ fileRelPaths rest,
            hasSwp (cfg.remoteRoot ++ (s ++ r)) = true ∨
              cfg.localRoot ++ (s ++ r) ∈ st2.localPaths := by
        intro st2 hsub r hr
        rcases h r (by simp [fileRelPaths, hr]) with hswp | hmem
        · exact Or.inl hswp
        · exact Or.inr (hsub hmem)
      by_cases hm : (cfg.localRoot ++ s) ++ [name] ∈ st.localPaths
      · simp only [syncDir, hm, if_true]
        exact ih s st (hrest st fun _ hx => hx)
      · rcases h [name] (by simp [fileRelPaths]) with hswp | hmem
        · simp only [syncDir, hm, if_false]
          have hswp2 : hasSwp ((cfg.remoteRoot ++ s) ++ [name]) = true := by
            simpa [List.append_assoc] using hswp
          rw [downloadFileM_swp hswp2]
          rw [ih s { st with misses := st.misses ++ [(cfg.localRoot ++ s) ++ [name]] }
            (hrest _ fun _ hx => hx)]
        · exact absurd (by simpa [List.append_assoc] using hmem) hm
  | consDir name children rest ihc ihr =>
      simp only [syncDir]
      rw [List.append_assoc, List.append_assoc]
      have hchk := checkOrCreateDir_le .remoteToLocal
        (cfg.localRoot ++ (s ++ [name])) st
      have hcs : ∀ r' ∈ fileRelPaths children,
          hasSwp (cfg.remoteRoot ++ ((s ++ [name]) ++ r')) = true ∨
            cfg.localRoot ++ ((s ++ [name]) ++ r') ∈
              (checkOrCreateDir .remoteToLocal (cfg.localRoot ++ (s ++ [name]))
                st).localPaths := by
        intro r' hr'
        rcases h (name :: r') (by
          simp only [fileRelPaths, List.mem_append]
          exact Or.inl (List.mem_map.mpr ⟨r', hr', rfl⟩)) with hswp | hmem
        · exact Or.inl (by simpa [List.append_assoc] using hswp)
        · exact Or.inr (hchk.1 (by simpa [List.append_assoc] using hmem))
      have hc := ihc (s ++ [name]) _ hcs
      have hsubpaths := (syncDir_le cfg .remoteToLocal
        (cfg.localRoot ++ (s ++ [name])) (cfg.remoteRoot ++ (s ++ [name]))
        children (checkOrCreateDir .remoteToLocal (cfg.localRoot ++ (s ++ [name]))
          st)).1
      have hrs : ∀ r ∈ fileRelPaths rest,
          hasSwp (cfg.remoteRoot ++ (s ++ r)) = true ∨
            cfg.localRoot ++ (s ++ r) ∈
              (syncDir cfg .remoteToLocal (cfg.localRoot ++ (s ++ [name]))
                (cfg.remoteRoot ++ (s ++ [name])) children
                (checkOrCreateDir .remoteToLocal (cfg.localRoot ++ (s ++ [name]))
                  st)).localPaths := by
        intro r hrmem
        rcases h r (by simp [fileRelPaths, hrmem]) with hswp | hmem
        · exact Or.inl hswp
        · exact Or.inr (hsubpaths (hchk.1 hmem))
      rw [ihr s _ hrs, hc, checkOrCreateDir_downloads]

theorem syncDir_r2l_download_src (cfg : Cfg) (s : Path) (f : FsForest) (st : SyncSt)
    (q : Path)
    (hq : q ∈ (syncDir cfg .remoteToLocal (cfg.localRoot ++ s)
      (cfg.remoteRoot ++ s) f st).downloads) :
    q ∈ st.downloads ∨ convertRemoteToLocalPath cfg q ∉ st.localPaths := by
  induction f generalizing s st with
  | nil => exact Or.inl hq
  | consFile name rest ih =>
      by_cases hm : (cfg.localRoot ++ s) ++ [name] ∈ st.localPaths
      · simp only [syncDir, hm, if_true] at hq
        exact ih s st hq
      · simp only [syncDir, hm, if_false] at hq
        by_cases hs : hasSwp ((cfg.remoteRoot ++ s) ++ [name]) = true
        · rw [downloadFileM_swp hs] at hq
          rcases ih s _ hq with h1 | h2
          · exact Or.inl h1
          · exact Or.inr fun hc => h2 hc
        · have hsf : hasSwp ((cfg.remoteRoot ++ s) ++ [name]) = false := by
            revert hs
            cases hasSwp ((cfg.remoteRoot ++ s) ++ [name]) <;> simp
          rw [downloadFileM_go hsf] at hq
          rcases ih s _ hq with h1 | h2
          · rcases List.mem_append.mp h1 with h1a | h1b
            · exact Or.inl h1a
            · obtain rfl := List.mem_singleton.mp h1b
              refine Or.inr ?_
              have hconv : convertRemoteToLocalPath cfg
                  ((cfg.remoteRoot ++ s) ++ [name]) =
                  (cfg.localRoot ++ s) ++ [name] := by
                simp only [convertRemoteToLocalPath, List.append_assoc]
                rw [relPath_append]
              rw [hconv]
              exact hm
          · exact Or.inr fun hc => h2 (List.mem_cons_of_mem _ hc)
  | consDir name children rest ihc ihr =>
      simp only [syncDir] at hq
      rcases ihr s _ hq with h1 | h2
      · rw [List.append_assoc, List.append_assoc] at h1
        rcases ihc (s ++ [name]) _ h1 with g1 | g2
        · rw [checkOrCreateDir_downloads] at g1
          exact Or.inl g1
        · exact Or.inr fun hc => g2 ((checkOrCreateDir_le _ _ _).1 hc)
      · exact Or.inr fun hc =>
          h2 ((syncDir_le cfg _ _ _ children _).1 ((checkOrCreateDir_le _ _ _).1 hc))

example :
    runInitialSync ⟨["l"], ["r"]⟩ .remoteToLocal
        (.consFile "a.swp" (.consFile "b" .nil)) [] [] =
      ⟨[["l", "b"]], [], [], [["r", "b"]], [],
        [["l", "a.swp"], ["l", "b"]]⟩ := by
  decide

/-- The second InitialSync run immediately after a first one, with no
intervening changes: it starts from the stores the first run produced,
with fresh operation logs. -/
def rerunInitialSync (cfg : Cfg) (d : SyncDirection) (tree : FsForest)
    (lp rp : List Path) : SyncSt :=
  runInitialSync cfg d tree (runInitialSync cfg d tree lp rp).localPaths
    (runInitialSync cfg d tree lp rp).remotePaths

/-- C2 amended: for every pair of trees and both directions, a second
InitialSync run immediately after the first performs zero file transfers
(no uploads and no downloads), and a file whose counterpart exists on the
target side at the start is never transferred by the first run; however,
existence checks need not all short-circuit on the second run (directory
checks and .swp-skipped downloads can miss again without transferring). -/
theorem initialSync_idempotent (cfg : Cfg) (d : SyncDirection) (tree : FsForest)
    (lp rp : List Path) :
    ((rerunInitialSync cfg d tree lp rp).uploads = []
      ∧ (rerunInitialSync cfg d tree lp rp).downloads = [])
    ∧ ∀ r : Path, cfg.localRoot ++ r ∈ lp → cfg.remoteRoot ++ r ∈ rp →
        cfg.localRoot ++ r ∉ (runInitialSync cfg d tree lp rp).uploads
        ∧ cfg.remoteRoot ++ r ∉ (runInitialSync cfg d tree lp rp).downloads := by
  cases d with
  | localToRemote =>
      refine ⟨⟨?_, ?_⟩, fun r hl hr => ⟨fun hmem => ?_, fun hmem => ?_⟩⟩
      · simp only [rerunInitialSync, runInitialSync, initialSync]
        refine syncDir_l2r_uploads_covered cfg _ _ tree _ fun r hr => ?_
        have := syncDir_l2r_covers cfg [] tree ⟨lp, rp, [], [], [], []⟩ r hr
        simpa using this
      · simp only [rerunInitialSync, runInitialSync, initialSync]
        rw [syncDir_l2r_downloads]
      · simp only [runInitialSync, initialSync] at hmem
        have := syncDir_l2r_upload_src cfg [] tree ⟨lp, rp, [], [], [], []⟩
          (cfg.localRoot ++ r) (by simpa using hmem)
        rcases this with h1 | h2
        · cases h1
        · apply h2
          have hc : convertLocalToRemotePath cfg (cfg.localRoot ++ r) =
              cfg.remoteRoot ++ r := by
            simp only [convertLocalToRemotePath]
            rw [relPath_append]
          rw [hc]
          exact hr
      · simp only [runInitialSync, initialSync] at hmem
        rw [syncDir_l2r_downloads] at hmem
        cases hmem
  | remoteToLocal =>
      refine ⟨⟨?_, ?_⟩, fun r hl hr => ⟨fun hmem => ?_, fun hmem => ?_⟩⟩
      · simp only [rerunInitialSync, runInitialSync, initialSync]
        rw [syncDir_r2l_uploads]
      · simp only [rerunInitialSync, runInitialSync, initialSync]
        have hcov := syncDir_r2l_downloads_covered cfg [] tree
          ⟨(syncDir cfg .remoteToLocal cfg.localRoot cfg.remoteRoot tree
              ⟨lp, rp, [], [], [], []⟩).localPaths,
            (syncDir cfg .remoteToLocal cfg.localRoot cfg.remoteRoot tree
              ⟨lp, rp, [], [], [], []⟩).remotePaths, [], [], [], []⟩
          (by
            intro r hr
            simp only [List.nil_append]
            by_cases hswp : hasSwp (cfg.remoteRoot ++ r) = true
            · exact Or.inl hswp
            · refine Or.inr ?_
              have hsf : hasSwp (cfg.remoteRoot ++ r) = false := by
                revert hswp
                cases hasSwp (cfg.remoteRoot ++ r) <;> simp
              have := syncDir_r2l_covers cfg [] tree ⟨lp, rp, [], [], [], []⟩
                r hr (by simpa using hsf)
              simpa using this)
        rw [List.append_nil, List.append_nil] at hcov
        rw [hcov]
      · simp only [runInitialSync, initialSync] at hmem
        rw [syncDir_r2l_uploads] at hmem
        cases hmem
      · simp only [runInitialSync, initialSync] at hmem
        have := syncDir_r2l_download_src cfg [] tree ⟨lp, rp, [], [], [], []⟩
          (cfg.remoteRoot ++ r) (by simpa using hmem)
        rcases this with h1 | h2
        · cases h1
        · apply h2
          have hc : convertRemoteToLocalPath cfg (cfg.remoteRoot ++ r) =
              cfg.localRoot ++ r := by
            simp only [convertRemoteToLocalPath]
            rw [relPath_append]
          rw [hc]
          exact hl

/-- C2 witness: the idempotence theorem applied to a one-file tree whose
file exists on both sides at the start, with the membership hypotheses
discharged concretely. -/
theorem initialSync_idempotent_witness :
    ["l"] ++ ["f"] ∈ [["l", "f"]] ∧ ["r"] ++ ["f"] ∈ [["r", "f"]]
    ∧ (["l"] ++ ["f"] ∉ (runInitialSync ⟨["l"], ["r"]⟩ .localToRemote
          (.consFile "f" .nil) [["l", "f"]] [["r", "f"]]).uploads
      ∧ ["r"] ++ ["f"] ∉ (runInitialSync ⟨["l"], ["r"]⟩ .localToRemote
          (.consFile "f" .nil) [["l", "f"]] [["r", "f"]]).downloads) :=
  ⟨by decide, by decide,
   (initialSync_idempotent ⟨["l"], ["r"]⟩ .localToRemote (.consFile "f" .nil)
      [["l", "f"]] [["r", "f"]]).2 ["f"] (by decide) (by decide)⟩

/-- C2 counterexample: LocalToRemote with local tree sub/f, both stores
initially empty.  The second run performs zero transfers, but its
directory existence check — os.Stat of the remote path, issued against
the local filesystem — misses again and MkdirAll is re-issued: not every
existence check on the second run finds the counterpart present and
short-circuits. -/
theorem initialSync_second_run_recheck :
    (rerunInitialSync ⟨["l"], ["r"]⟩ .localToRemote
        (.consDir "sub" (.consFile "f" .nil) .nil) [] []).misses = [["r", "sub"]]
    ∧ (rerunInitialSync ⟨["l"], ["r"]⟩ .localToRemote
        (.consDir "sub" (.consFile "f" .nil) .nil) [] []).mkdirs = [["r", "sub"]]
    ∧ (rerunInitialSync ⟨["l"], ["r"]⟩ .localToRemote
        (.consDir "sub" (.consFile "f" .nil) .nil) [] []).uploads = []
    ∧ (rerunInitialSync ⟨["l"], ["r"]⟩ .localToRemote
        (.consDir "sub" (.consFile "f" .nil) .nil) [] []).downloads = [] := by
  decide

/-- C5: checkOrCreateDir performs its existence check with os.Stat on the
LOCAL filesystem even in LocalToRemote mode (sftp.go:311).  With local
tree sub/f, the remote directory r/sub absent on the remote server, but
the path r/sub present on the local machine, InitialSync issues no
MkdirAll — the remote directory is never created — and still recurses,
uploading f into the uncreated directory. -/
theorem checkOrCreateDir_skips_remote_creation :
    (runInitialSync ⟨["l"], ["r"]⟩ .localToRemote
        (.consDir "sub" (.consFile "f" .nil) .nil) [["r", "sub"]] []).mkdirs = []
    ∧ ["r", "sub"] ∉ (runInitialSync ⟨["l"], ["r"]⟩ .localToRemote
        (.consDir "sub" (.consFile "f" .nil) .nil) [["r", "sub"]] []).remotePaths
    ∧ (runInitialSync ⟨["l"], ["r"]⟩ .localToRemote
        (.consDir "sub" (.consFile "f" .nil) .nil) [["r", "sub"]] []).uploads =
      [["l", "sub", "f"]] := by
  decide

/-- C8: downloadFile returns success immediately for every remote path
whose file name contains the substring ".swp": the state is unchanged —
no file opened or created, nothing transferred — in any mode that invokes
downloadFile. -/
theorem downloadFile_skips_swp (cfg : Cfg) (dirs : Path) (name : String)
    (st : SyncSt) (h : strContains name ".swp" = true) :
    downloadFileM cfg (dirs ++ [name]) st = st := by
  apply downloadFileM_swp
  refine List.any_eq_true.mpr ⟨name, ?_, h⟩
  exact List.mem_append_right _ (List.mem_singleton.mpr rfl)

/-- C8 witness: a concrete .swp download request leaves the state
untouched. -/
theorem downloadFile_skips_swp_witness :
    strContains "a.swp" ".swp" = true
    ∧ downloadFileM ⟨["l"], ["r"]⟩ (["r"] ++ ["a.swp"]) ⟨[], [], [], [], [], []⟩ =
      ⟨[], [], [], [], [], []⟩ :=
  ⟨by decide,
   downloadFile_skips_swp ⟨["l"], ["r"]⟩ ["r"] "a.swp" ⟨[], [], [], [], [], []⟩
     (by decide)⟩

/-- Outcome of one attempt of the FTP transfer loop body: failure of the
PASV command, of the STOR/RETR command, of the io.Copy, or full success. -/
inductive FtpStepResult where
  | pasvFailed | storFailed | copyFailed | succeeded
  deriving DecidableEq, Repr

def attemptFailed : FtpStepResult → Bool
  | .succeeded => false
  | _ => true

/-- The retry loop of FTP.uploadFile / FTP.downloadFile (ftp.go:368-394,
ftp.go:414-440): for i from 0 while i < maxRetries, run the attempt; on
failure return the error when i = maxRetries-1 and otherwise continue; on
success break.  fuel = maxRetries - i keeps the embedding structurally
recursive.  Returns (number of loop-body executions, whether an error was
returned). -/
def ftpRetryLoop (maxRetries : Nat) (attempt : Nat → FtpStepResult) :
    Nat → Nat → Nat × Bool
  | _, 0 => (0, false)
  | i, fuel + 1 =>
      if attemptFailed (attempt i) then
        if i = maxRetries - 1 then (1, true)
        else
          let r := ftpRetryLoop maxRetries attempt (i + 1) fuel
          (r.1 + 1, r.2)
      else (1, false)

/-- FTP.uploadFile (ftp.go:353-397): open the local file (openOk), then
run the retry loop.  Returns (attempts performed, whether an error was
returned); FTP.downloadFile (ftp.go:399-443) has the identical loop with
os.Create and RETR in place of os.Open and STOR. -/
def ftpUploadFile (maxRetries : Nat) (openOk : Bool)
    (attempt : Nat → FtpStepResult) : Nat × Bool :=
  if openOk then ftpRetryLoop maxRetries attempt 0 maxRetries
  else (0, true)

/-- SFTP.uploadFile (sftp.go:513-550): Rel, os.Open, Client.Create, one
io.Copy — no retry loop at all; MaxRetries is never consulted.  Returns
(number of io.Copy transfer attempts, whether an error was returned). -/
def sftpUploadFile (openOk createOk copyOk : Bool) : Nat × Bool :=
  if !openOk then (0, true)
  else if !createOk then (0, true)
  else if !copyOk then (1, true)
  else (1, false)

/-- C4 counterexample: the SFTP upload handler with a transfer that fails
on every attempt performs exactly one attempt — not MaxRetries of them (a
session with MaxRetries = 3 still gets a single attempt, since sftp.go's
uploadFile has no retry loop). -/
theorem sftpUploadFile_single_attempt :
    sftpUploadFile true true false = (1, true)
    ∧ (sftpUploadFile true true false).1 ≠ 3 := by
  decide

theorem ftpRetryLoop_all_fail (m : Nat) (attempt : Nat → FtpStepResult) :
    ∀ fuel i, 1 ≤ fuel → fuel + i = m →
      (∀ j, i ≤ j → j < m → attemptFailed (attempt j) = true) →
      ftpRetryLoop m attempt i fuel = (fuel, true) := by
  intro fuel
  induction fuel with
  | zero => intro i h0; cases h0
  | succ f ih =>
      intro i _ hsum hfail
      have hi : i < m := by omega
      have hf : attemptFailed (attempt i) = true :=
        hfail i (Nat.le_refl i) hi
      by_cases hlast : i = m - 1
      · have hf0 : f = 0 := by omega
        subst hf0
        simp only [ftpRetryLoop]
        rw [if_pos hf, if_pos hlast]
      · have hf1 : 1 ≤ f := by omega
        have hrec := ih (i + 1) hf1 (by omega)
          (fun j hj1 hj2 => hfail j (by omega) hj2)
        simp only [ftpRetryLoop]
        rw [if_pos hf, if_neg hlast, hrec]

theorem ftpRetryLoop_succeeds (m : Nat) (attempt : Nat → FtpStepResult) :
    ∀ fuel i k, fuel + i = m → i ≤ k → k < m →
      attemptFailed (attempt k) = false →
      (∀ j, i ≤ j → j < k → attemptFailed (attempt j) = true) →
      ftpRetryLoop m attempt i fuel = (k + 1 - i, false) := by
  intro fuel
  induction fuel with
  | zero => intro i k hsum hik hkm; omega
  | succ f ih =>
      intro i k hsum hik hkm hok hfail
      by_cases hki : k = i
      · subst hki
        simp [ftpRetryLoop, hok]
      · have hf : attemptFailed (attempt i) = true :=
          hfail i (Nat.le_refl i) (by omega)
        have hlast : i ≠ m - 1 := by omega
        have hrec := ih (i + 1) k (by omega) (by omega) hkm hok
          (fun j hj1 hj2 => hfail j (by omega) hj2)
        simp only [ftpRetryLoop]
        rw [if_pos hf, if_neg hlast, hrec]
        simp only [Prod.mk.injEq]
        constructor
        · omega
        · trivial

/-- C4 amended: the FTP upload/download handlers, for MaxRetries at least
one, attempt a task that fails every time exactly MaxRetries times and
then surface the error, and surface no error for a task that succeeds
within the budget; the SFTP handlers have no retry loop and perform at
most one transfer attempt, surfacing the first failure. -/
theorem ftpRetry_budget (m : Nat) (attempt : Nat → FtpStepResult)
    (hm : 1 ≤ m) :
    ((∀ i, i < m → attemptFailed (attempt i) = true) →
      ftpUploadFile m true attempt = (m, true))
    ∧ (∀ k, k < m → attemptFailed (attempt k) = false →
        (∀ j, j < k → attemptFailed (attempt j) = true) →
        ftpUploadFile m true attempt = (k + 1, false))
    ∧ ∀ a b c : Bool, (sftpUploadFile a b c).1 ≤ 1 := by
  refine ⟨fun hfail => ?_, fun k hk hok hfail => ?_, fun a b c => ?_⟩
  · unfold ftpUploadFile
    rw [if_pos rfl]
    exact ftpRetryLoop_all_fail m attempt m 0 hm (by omega)
      (fun j _ hj => hfail j hj)
  · unfold ftpUploadFile
    rw [if_pos rfl]
    have := ftpRetryLoop_succeeds m attempt m 0 k (by omega) (Nat.zero_le k)
      hk hok (fun j _ hj => hfail j hj)
    simpa using this
  · cases a <;> cases b <;> cases c <;> decide

/-- C4 witness: the amended theorem applied with MaxRetries = 2 to an
always-failing transfer and to one that succeeds at the second try. -/
theorem ftpRetry_budget_witness :
    ftpUploadFile 2 true (fun _ => FtpStepResult.copyFailed) = (2, true)
    ∧ ftpUploadFile 2 true
        (fun i => if i = 0 then FtpStepResult.pasvFailed
          else FtpStepResult.succeeded) = (2, false) :=
  ⟨(ftpRetry_budget 2 (fun _ => FtpStepResult.copyFailed) (by decide)).1
      (fun i _ => rfl),
   (ftpRetry_budget 2 (fun i => if i = 0 then FtpStepResult.pasvFailed
        else FtpStepResult.succeeded) (by decide)).2.1 1 (by decide) (by decide)
      (fun j hj => by
        have hj0 : j = 0 := by omega
        subst hj0
        decide)⟩

/-- Which handler SFTP.Worker (sftp.go:703-740) invokes for a task —
FTP.Worker (ftp/worker.go:10-48) dispatches identically.  A Create task
branches on the direction (upload vs download), a Write task is always
handed to uploadFile with no direction branch, a Remove task branches on
the direction, and rename/chmod tasks have no case and are dropped. -/
inductive WorkerCall where
  | uploadFile (name : String)
  | downloadFile (name : String)
  | removeRemoteFile (name : String)
  | removeLocalFile (name : String)
  deriving DecidableEq, Repr

def workerHandle (direction : SyncDirection) (task : Task) : Option WorkerCall :=
  match task.eventType with
  | .create =>
      match direction with
      | .localToRemote => some (.uploadFile task.name)
      | .remoteToLocal => some (.downloadFile task.name)
  | .write => some (.uploadFile task.name)
  | .remove =>
      match direction with
      | .localToRemote => some (.removeRemoteFile task.name)
      | .remoteToLocal => some (.removeLocalFile task.name)
  | .rename => none
  | .chmod => none

/-- C9: a Write task is handed to uploadFile regardless of the session
direction — in RemoteToLocal mode it triggers an upload, not a download —
whereas Create and Remove tasks branch on the direction. -/
theorem worker_write_uploads_regardless_of_direction (d : SyncDirection)
    (p : String) :
    workerHandle d ⟨.write, p⟩ = some (.uploadFile p)
    ∧ workerHandle .remoteToLocal ⟨.write, p⟩ ≠ some (.downloadFile p)
    ∧ workerHandle .remoteToLocal ⟨.create, p⟩ = some (.downloadFile p)
    ∧ workerHandle .localToRemote ⟨.create, p⟩ = some (.uploadFile p)
    ∧ workerHandle .remoteToLocal ⟨.remove, p⟩ = some (.removeLocalFile p)
    ∧ workerHandle .localToRemote ⟨.remove, p⟩ = some (.removeRemoteFile p) := by
  cases d <;> refine ⟨rfl, fun h => ?_, rfl, rfl, rfl, rfl⟩ <;>
    simp [workerHandle] at h

/-- The sftp ExtraConfig (sftp.go:54-67). -/
structure ExtraConfig where
  username : String
  password : String
  localDir : String
  remoteDir : String
  retries : Nat
  maxRetries : Nat
  deriving DecidableEq, Repr

/-- Result of sftp Connect: a connected client (with the user and
password that went into the ssh.ClientConfig), a returned connection
error, or a runtime panic from dereferencing a nil config. -/
inductive ConnectResult where
  | ok (user : String) (authPassword : String)
  | connectionError
  | nilPointerPanic
  deriving DecidableEq, Repr

/-- sftp Connect (sftp.go:103-134): the auth method guards config against
nil (anonymous password when nil), but the subsequent ssh.ClientConfig
construction reads config.Username unconditionally, so a nil config is
dereferenced before dialing.  dialOk and newClientOk model the out-of-
scope ssh.Dial and sftp.NewClient outcomes. -/
def connect (config : Option ExtraConfig) (dialOk newClientOk : Bool) :
    ConnectResult :=
  let authPassword :=
    match config with
    | some c => c.password
    | none => "anonymous"
  match config with
  | none => .nilPointerPanic
  | some c =>
      if dialOk then
        if newClientOk then .ok c.username authPassword
        else .connectionError
      else .connectionError

/-- C10: Connect with a nil config never returns a connection error — it
dereferences config.Username on a nil pointer and panics, whatever the
dial outcome would have been. -/
theorem connect_nil_config_panics (dialOk newClientOk : Bool) :
    connect none dialOk newClientOk = .nilPointerPanic
    ∧ connect none dialOk newClientOk ≠ .connectionError := by
  refine ⟨rfl, fun h => ?_⟩
  cases h

end GoSync
